import Mathlib

/-!
Verification of the query-partitioning and reassembly engine of `ssb_mcp`
(`src/ssb_mcp/main.py`).

The partitioner (`_count_combinations`, `_recursive_split`) is embedded as
executable Lean functions over a `Variable` record mirroring the Python
dicts `{"code": ..., "values": ...}` that `read_table` builds from table
metadata.  Python's `max(variables, key=lambda x: x["values"])` compares the
value lists themselves (element-wise string comparison, shorter-prefix
smaller), so that comparison is embedded exactly.  Since the Python
recursion is not structurally terminating (and in fact does not terminate
on some inputs), `recursive_split` takes a fuel argument and returns
`none` when the fuel is exhausted; `neverReturns vars` states that no
amount of fuel suffices, i.e. the Python function recurses forever.

The dataset-assembly loop of `read_table` (lines 131-142) is embedded over
a small `DataFrame` record: `pdEmpty` models `DataFrame.empty`, `pdConcat`
models `pd.concat([a, b], ignore_index=True)` (outer join on columns:
the union of the column labels in order of first appearance, rows
reindexed with `none` = NaN for absent columns), and `assemble` folds the
loop body `df = sub_df if df.empty else pd.concat([df, sub_df], ...)`
over the per-sub-query dataframes.

The metadata step of `read_table` (lines 108-113) is embedded by
`buildVariables` over descriptors whose `code` / `values` keys may be
absent (`Option`): a missing key is Python's `KeyError`, modelled as
`none`.
-/

namespace SsbMcp

/-- One dimension of a query: the Python dict `{"code": c, "values": vs}`. -/
structure Variable where
  code : String
  values : List String
deriving DecidableEq

/-- Python comparison of two lists of Unicode code points (string compare). -/
def charListCompare : List Char → List Char → Ordering
  | [], [] => .eq
  | [], _ :: _ => .lt
  | _ :: _, [] => .gt
  | a :: as, b :: bs =>
    match compare a.val.toNat b.val.toNat with
    | .eq => charListCompare as bs
    | o => o

/-- Python string comparison (by Unicode code points). -/
def strCompare (a b : String) : Ordering :=
  charListCompare a.data b.data

/-- Python comparison of two lists of strings (element-wise, then length). -/
def strListCompare : List String → List String → Ordering
  | [], [] => .eq
  | [], _ :: _ => .lt
  | _ :: _, [] => .gt
  | a :: as, b :: bs =>
    match strCompare a b with
    | .eq => strListCompare as bs
    | o => o

/-- `key(x) > key(acc)` for `max(variables, key=lambda x: x["values"])`. -/
def valuesGt (a b : List String) : Bool :=
  match strListCompare a b with
  | .gt => true
  | _ => false

/-- Python's `max(variables, key=lambda x: x["values"])`: the first element
whose key no later element strictly exceeds.  `max` on an empty list raises
in Python; that case is unreachable in `recursive_split` (an empty list has
cardinality 1, under the cap), so it gets a junk default here. -/
def pyMaxVar (vars : List Variable) : Variable :=
  match vars with
  | [] => ⟨"", []⟩
  | v :: rest => rest.foldl (fun acc x => if valuesGt x.values acc.values then x else acc) v

/-- `_count_combinations` (main.py lines 183-188): `count = 1`, then
`count *= len(variable["values"])` over the variables. -/
def countCombinations (vars : List Variable) : Nat :=
  vars.foldl (fun count v => count * v.values.length) 1

/-- `split_index = len(largest_variable["values"]) // 2` (line 197). -/
def splitIndexOf (vars : List Variable) : Nat :=
  (pyMaxVar vars).values.length / 2

/-- `p1 = largest_variable["values"][:split_index]` (line 199). -/
def p1Of (vars : List Variable) : List String :=
  (pyMaxVar vars).values.take (splitIndexOf vars)

/-- `p2 = largest_variable["values"][split_index:]` (line 200). -/
def p2Of (vars : List Variable) : List String :=
  (pyMaxVar vars).values.drop (splitIndexOf vars)

/-- The sub-query construction of lines 202-216: every variable keeps its
code; a variable equal (as a dict) to the selected one gets `p` as its
values, the rest keep their values. -/
def subQuery (vars : List Variable) (largest : Variable) (p : List String) : List Variable :=
  vars.map fun v => ⟨v.code, if v = largest then p else v.values⟩

/-- `sub_query1` (lines 202-208). -/
def sub1Of (vars : List Variable) : List Variable :=
  subQuery vars (pyMaxVar vars) (p1Of vars)

/-- `sub_query2` (lines 210-216). -/
def sub2Of (vars : List Variable) : List Variable :=
  subQuery vars (pyMaxVar vars) (p2Of vars)

/-- `_recursive_split` (main.py lines 191-218), with fuel: `none` means the
given recursion depth did not suffice.  The Python function returns
`_recursive_split(sub_query1) + _recursive_split(sub_query2)`, so the fuel
version returns `some (r1 ++ r2)` exactly when both recursive calls do. -/
def recursive_split : Nat → List Variable → Option (List (List Variable))
  | 0, _ => none
  | fuel + 1, vars =>
    if countCombinations vars ≤ 300000 then
      some [vars]
    else
      match recursive_split fuel (sub1Of vars), recursive_split fuel (sub2Of vars) with
      | some r1, some r2 => some (r1 ++ r2)
      | _, _ => none

/-- The Python `_recursive_split` diverges on this input: no recursion
depth produces a result. -/
def neverReturns (vars : List Variable) : Prop :=
  ∀ fuel, recursive_split fuel vars = none

/-- The cells of a query: the cross-product of its per-dimension value
lists in dimension order (the data model of spec section 3: one value per
dimension per cell). -/
def cells : List Variable → List (List String)
  | [] => [[]]
  | v :: vs => v.values.flatMap fun x => (cells vs).map fun c => x :: c

/-- Decidable test that a cell (one value per dimension, in dimension
order) lies in a query's cross-product. -/
def coversCell (q : List Variable) (c : List String) : Bool :=
  q.length = c.length && (q.zip c).all fun p => p.1.values.contains p.2

/-- The dimension codes are pairwise distinct (the data-model invariant of
spec section 3: `code` is unique across the dimensions of one table). -/
def distinctCodes (vars : List Variable) : Prop :=
  (vars.map (·.code)).Nodup

instance (vars : List Variable) : Decidable (distinctCodes vars) :=
  inferInstanceAs (Decidable ((vars.map fun v : Variable => v.code).Nodup))

/-- A block of `n` two-valued dimensions with distinct codes, used to push
concrete inputs over the 300,000-cell cap. -/
def wDims (pre : String) (n : Nat) : List Variable :=
  (List.range n).map fun i => ⟨pre ++ toString i, ["a", "b"]⟩

/-- Concrete input for the selection claim: cardinality 3 * 2^17 = 393216
exceeds the cap, the dimension of largest value-count is `big` (3 values),
but the value list `["z"]` of `tiny` is the lexicographically largest. -/
def c1ex : List Variable :=
  ⟨"big", ["a", "b", "c"]⟩ :: (wDims "w" 17 ++ [⟨"tiny", ["z"]⟩])

/-- Concrete input on which `_recursive_split` recurses forever:
cardinality 2^19 = 524288 exceeds the cap while the selected dimension
`tiny` has a single value, so `sub_query2` equals the input itself. -/
def c2ex : List Variable :=
  ⟨"tiny", ["z"]⟩ :: wDims "w" 19

/-- A second degenerate input (for the error-handling claim): the selected
dimension `region` has one value and cardinality 2^19 exceeds the cap. -/
def c3ex : List Variable :=
  ⟨"region", ["z"]⟩ :: wDims "k" 19

/-- Concrete input with a duplicated dimension record (codes not unique):
both copies of `dup` are replaced by the same half at every split, so the
returned queries lose cells. -/
def c4ex : List Variable :=
  ⟨"dup", ["za", "zb"]⟩ :: ⟨"dup", ["za", "zb"]⟩ :: wDims "v" 17

/-- A cell of `c4ex` (first copy at `za`, second copy at `zb`) that no
returned query covers. -/
def c4cell : List String :=
  "za" :: "zb" :: List.replicate 17 "a"

/-- Concrete input with a duplicated dimension record for the cardinality
conservation claim. -/
def c5ex : List Variable :=
  ⟨"z", ["za", "zb"]⟩ :: ⟨"z", ["za", "zb"]⟩ :: wDims "u" 17

/-- The dataframe of the assembly loop of `read_table` (lines 131-142):
column labels and rows, a cell being `none` for NaN. -/
structure DataFrame where
  cols : List String
  rows : List (List (Option String))
deriving DecidableEq

/-- `df.empty` in pandas: true when any axis has length 0. -/
def pdEmpty (df : DataFrame) : Bool :=
  df.rows.isEmpty || df.cols.isEmpty

/-- Reindexing one row from its source columns to the target columns, as
`pd.concat` does on the non-concatenation axis: a target column absent
from the source gets NaN (`none`). -/
def reindexRow (srcCols : List String) (row : List (Option String))
    (tgtCols : List String) : List (Option String) :=
  tgtCols.map fun c =>
    match (srcCols.zip row).find? (fun p => p.1 == c) with
    | some p => p.2
    | none => none

/-- `pd.concat([a, b], ignore_index=True)` (line 140): outer join of the
column sets (the first frame's columns, then the second's unseen columns in
order), with every row of `a` followed by every row of `b`, each reindexed
to the joined columns. -/
def pdConcat (a b : DataFrame) : DataFrame :=
  let newCols := a.cols ++ b.cols.filter fun c => !(a.cols.contains c)
  ⟨newCols,
    a.rows.map (fun r => reindexRow a.cols r newCols)
      ++ b.rows.map (fun r => reindexRow b.cols r newCols)⟩

/-- The loop body of line 140: `df = sub_df if df.empty else
pd.concat([df, sub_df], ignore_index=True)`. -/
def assembleStep (df sub : DataFrame) : DataFrame :=
  if pdEmpty df then sub else pdConcat df sub

/-- The assembly loop of lines 131-142: starting from `pd.DataFrame()`
(no columns, no rows), fold the loop body over the per-sub-query
dataframes in partition order. -/
def assemble (subs : List DataFrame) : DataFrame :=
  subs.foldl assembleStep ⟨[], []⟩

/-- Every row of the frame has one cell per column. -/
def wfRows (df : DataFrame) : Prop :=
  ∀ r ∈ df.rows, r.length = df.cols.length

instance (df : DataFrame) : Decidable (wfRows df) :=
  inferInstanceAs (Decidable (∀ r ∈ df.rows, r.length = df.cols.length))

/-- A variable descriptor of the table metadata (lines 108-113): the dict
keys `code` and `values` may be absent (`none` models Python's KeyError on
access). -/
structure RawVariable where
  code : Option String
  values : Option (List String)
deriving DecidableEq

/-- The list comprehension of lines 110-113 building
`{"code": variable["code"], "values": variable["values"]}` per descriptor:
a missing key raises (modelled `none`); no other validation is performed,
in particular an empty value list is accepted. -/
def buildVariables : List RawVariable → Option (List Variable)
  | [] => some []
  | r :: rs =>
    match r.code, r.values with
    | some c, some vs => (buildVariables rs).map fun t => ⟨c, vs⟩ :: t
    | _, _ => none

example : countCombinations [⟨"a", ["x", "y"]⟩, ⟨"b", ["u", "v", "w"]⟩] = 6 := by decide

example : recursive_split 1 [⟨"x", ["a"]⟩] = some [[⟨"x", ["a"]⟩]] := by decide

example : cells [⟨"a", ["x", "y"]⟩, ⟨"b", ["u", "v"]⟩] =
    [["x", "u"], ["x", "v"], ["y", "u"], ["y", "v"]] := by decide

example : pyMaxVar [⟨"a", ["b", "c"]⟩, ⟨"z", ["d"]⟩] = ⟨"z", ["d"]⟩ := by decide

/-- The running count of `_count_combinations` is the product of the
per-dimension value counts. -/
theorem countCombinations_eq_prod (vars : List Variable) :
    countCombinations vars = (vars.map fun v => v.values.length).prod := by
  suffices h : ∀ (l : List Variable) (a : Nat),
      l.foldl (fun count v => count * v.values.length) a
        = a * (l.map fun v => v.values.length).prod by
    simpa [countCombinations] using h vars 1
  intro l
  induction l with
  | nil => intro a; simp
  | cons v vs ih => intro a; simp [List.foldl_cons, ih, mul_assoc]

/-- The cross-product of a query has exactly `_count_combinations` cells. -/
theorem length_cells (vars : List Variable) :
    (cells vars).length = countCombinations vars := by
  rw [countCombinations_eq_prod]
  induction vars with
  | nil => simp [cells]
  | cons v vs ih =>
    simp only [cells, List.length_flatMap, List.map_cons, List.prod_cons]
    rw [List.map_congr_left (g := fun _ => (cells vs).length) fun x _ => by simp]
    simp [List.map_const', ih, mul_comm]

theorem foldl_max_mem (rest : List Variable) :
    ∀ v : Variable,
      rest.foldl (fun acc x => if valuesGt x.values acc.values then x else acc) v ∈ v :: rest := by
  induction rest with
  | nil => intro v; simp
  | cons x rest ih =>
    intro v
    simp only [List.foldl_cons]
    rcases List.mem_cons.mp (ih (if valuesGt x.values v.values then x else v)) with h | h
    · by_cases hc : valuesGt x.values v.values
      · rw [if_pos hc] at h ⊢
        simp [h]
      · rw [if_neg hc] at h ⊢
        simp [h]
    · simp [h]

/-- Python's `max` returns an element of its (nonempty) argument. -/
theorem pyMaxVar_mem (vars : List Variable) (h : vars ≠ []) : pyMaxVar vars ∈ vars := by
  match vars with
  | [] => exact absurd rfl h
  | v :: rest => exact foldl_max_mem rest v

/-- When no element of the list equals the selected variable, the sub-query
construction copies the list unchanged. -/
theorem subQuery_of_forall_ne (vs : List Variable) (m : Variable) (p : List String)
    (h : ∀ u ∈ vs, u ≠ m) : subQuery vs m p = vs := by
  unfold subQuery
  rw [List.map_congr_left (g := id) fun u hu => by rw [if_neg (h u hu)]; rfl]
  exact List.map_id vs

/-- The sub-query construction preserves the dimension codes, in order. -/
theorem subQuery_map_code (vs : List Variable) (m : Variable) (p : List String) :
    (subQuery vs m p).map (·.code) = vs.map (·.code) := by
  simp [subQuery, List.map_map, Function.comp]

theorem distinctCodes_subQuery (vs : List Variable) (m : Variable) (p : List String)
    (h : distinctCodes vs) : distinctCodes (subQuery vs m p) := by
  unfold distinctCodes
  rw [subQuery_map_code]
  exact h

theorem flatMap_append_perm {α β : Type} [DecidableEq β] (l : List α) (f g : α → List β) :
    (l.flatMap f ++ l.flatMap g).Perm (l.flatMap fun x => f x ++ g x) := by
  rw [List.perm_iff_count]
  intro b
  induction l with
  | nil => simp
  | cons a l ih =>
    simp only [List.flatMap_cons, List.count_append] at *
    omega

theorem flatMap_perm_congr {α β : Type} (l : List α) (f g : α → List β)
    (h : ∀ x ∈ l, (f x).Perm (g x)) : (l.flatMap f).Perm (l.flatMap g) := by
  induction l with
  | nil => simp
  | cons a l ih =>
    simp only [List.flatMap_cons]
    exact (h a (by simp)).append (ih fun x hx => h x (by simp [hx]))

/-- One binary split is cell-preserving: when the dimension codes are
pairwise distinct and the selected dimension's values are split into two
consecutive pieces, the two sub-queries' cells together are a permutation
of the parent query's cells. -/
theorem subQuery_cells_perm :
    ∀ (vars : List Variable) (m : Variable) (q1 q2 : List String),
      distinctCodes vars → m ∈ vars → q1 ++ q2 = m.values →
      (cells (subQuery vars m q1) ++ cells (subQuery vars m q2)).Perm (cells vars) := by
  intro vars
  induction vars with
  | nil =>
    intro m q1 q2 _ hm _
    exact absurd hm (by simp)
  | cons v vs ih =>
    intro m q1 q2 hd hm hsplit
    have hd' := hd
    unfold distinctCodes at hd'
    rw [List.map_cons, List.nodup_cons] at hd'
    by_cases hv : v = m
    · subst hv
      have hne : ∀ u ∈ vs, u ≠ v := by
        intro u hu he
        exact hd'.1 (he ▸ List.mem_map_of_mem (·.code) hu)
      have h1 : ∀ p : List String, subQuery (v :: vs) v p = ⟨v.code, p⟩ :: vs := by
        intro p
        have hhead : subQuery (v :: vs) v p = ⟨v.code, p⟩ :: subQuery vs v p := by
          show (v :: vs).map _ = _
          rw [List.map_cons, if_pos rfl]
          rfl
        rw [hhead, subQuery_of_forall_ne vs v p hne]
      rw [h1 q1, h1 q2]
      simp only [cells]
      rw [← List.flatMap_append, hsplit]
    · have hmvs : m ∈ vs := by
        rcases List.mem_cons.mp hm with h | h
        · exact absurd h.symm hv
        · exact h
      have hd2 : distinctCodes vs := hd'.2
      have hstep : ∀ p : List String, subQuery (v :: vs) m p = v :: subQuery vs m p := by
        intro p
        show (v :: vs).map _ = _
        rw [List.map_cons, if_neg hv]
        rfl
      rw [hstep q1, hstep q2]
      simp only [cells]
      refine List.Perm.trans (flatMap_append_perm v.values _ _) ?_
      simp only [← List.map_append]
      exact flatMap_perm_congr _ _ _ fun x _ => List.Perm.map _ (ih m q1 q2 hd2 hmvs hsplit)

/-- Whenever `_recursive_split` returns on an input with pairwise-distinct
dimension codes, the cells of the returned queries, taken together, are a
permutation of the cells of the input query. -/
theorem split_cells_perm :
    ∀ (fuel : Nat) (vars : List Variable) (qs : List (List Variable)),
      distinctCodes vars → recursive_split fuel vars = some qs →
      (qs.flatMap cells).Perm (cells vars) := by
  intro fuel
  induction fuel with
  | zero =>
    intro vars qs _ h
    simp [recursive_split] at h
  | succ n ih =>
    intro vars qs hd h
    rw [recursive_split] at h
    by_cases hc : countCombinations vars ≤ 300000
    · rw [if_pos hc] at h
      injection h with h
      subst h
      simp only [List.flatMap_cons, List.flatMap_nil, List.append_nil]
      exact List.Perm.refl _
    · rw [if_neg hc] at h
      cases e1 : recursive_split n (sub1Of vars) with
      | none =>
        rw [e1] at h
        simp at h
      | some r1 =>
        cases e2 : recursive_split n (sub2Of vars) with
        | none =>
          rw [e1, e2] at h
          simp at h
        | some r2 =>
          rw [e1, e2] at h
          simp only [Option.some.injEq] at h
          subst h
          have hvs : vars ≠ [] := by
            intro hnil
            rw [hnil] at hc
            exact hc (by decide)
          have hm : pyMaxVar vars ∈ vars := pyMaxVar_mem vars hvs
          have hperm := subQuery_cells_perm vars (pyMaxVar vars) (p1Of vars) (p2Of vars)
            hd hm (List.take_append_drop _ _)
          rw [List.flatMap_append]
          exact ((ih _ r1 (distinctCodes_subQuery _ _ _ hd) e1).append
            (ih _ r2 (distinctCodes_subQuery _ _ _ hd) e2)).trans hperm

/-- When every dimension's value list is duplicate-free, the cells of the
query are pairwise distinct. -/
theorem cells_nodup (vars : List Variable) (h : ∀ v ∈ vars, v.values.Nodup) :
    (cells vars).Nodup := by
  induction vars with
  | nil => simp [cells]
  | cons v vs ih =>
    simp only [cells]
    rw [List.nodup_flatMap]
    constructor
    · intro x _
      exact (ih fun u hu => h u (by simp [hu])).map fun a b hab => by injection hab
    · have hv : v.values.Nodup := h v (by simp)
      refine List.Pairwise.imp ?_ hv
      intro a b hab c hca hcb
      rcases List.mem_map.mp hca with ⟨c1, _, rfl⟩
      rcases List.mem_map.mp hcb with ⟨c2, _, he⟩
      injection he with h1 _
      exact hab h1.symm

theorem countP_flatMap_cells (qs : List (List Variable)) (p : List String → Bool) :
    (qs.flatMap cells).countP p = (qs.map fun q => (cells q).countP p).sum := by
  induction qs with
  | nil => simp
  | cons q qs ih => simp [List.flatMap_cons, List.countP_append, ih]

theorem countP_eq_one_of_nodup (l : List (List String)) (c : List String)
    (hnd : l.Nodup) (hc : c ∈ l) : (l.countP fun x => decide (x = c)) = 1 := by
  induction l with
  | nil => exact absurd hc (by simp)
  | cons a l ih =>
    rw [List.nodup_cons] at hnd
    rw [List.countP_cons]
    rcases List.mem_cons.mp hc with rfl | hc'
    · have h0 : (l.countP fun x => decide (x = c)) = 0 := by
        rw [List.countP_eq_zero]
        intro x hx
        simp only [decide_eq_true_eq]
        intro he
        exact hnd.1 (he ▸ hx)
      simp [h0]
    · have hac : ¬ (a = c) := by
        intro he
        exact hnd.1 (he ▸ hc')
      simp [hac, ih hnd.2 hc']

theorem countP_pos_eq_zero {α : Type} (l : List α) (f : α → Nat)
    (h : (l.map f).sum = 0) : (l.countP fun x => decide (0 < f x)) = 0 := by
  induction l with
  | nil => simp
  | cons a l ih =>
    simp only [List.map_cons, List.sum_cons] at h
    have ha : f a = 0 := by omega
    rw [List.countP_cons]
    simp [ha, ih (by omega)]

theorem countP_pos_eq_one {α : Type} (l : List α) (f : α → Nat)
    (h : (l.map f).sum = 1) : (l.countP fun x => decide (0 < f x)) = 1 := by
  induction l with
  | nil => simp at h
  | cons a l ih =>
    simp only [List.map_cons, List.sum_cons] at h
    rw [List.countP_cons]
    by_cases ha : f a = 0
    · simp [ha, ih (by omega)]
    · have ha1 : 0 < f a := by omega
      have hl : (l.map f).sum = 0 := by omega
      simp [ha1, countP_pos_eq_zero l f hl]

theorem coversCell_cons (v : Variable) (vs : List Variable) (x : String) (c : List String) :
    (coversCell (v :: vs) (x :: c) = true) ↔ (x ∈ v.values ∧ coversCell vs c = true) := by
  simp only [coversCell, List.length_cons, List.zip_cons_cons, List.all_cons,
    Bool.and_eq_true, decide_eq_true_eq]
  rw [show (v.values.contains x = true) ↔ x ∈ v.values from List.elem_iff]
  constructor
  · rintro ⟨hlen, hx, hall⟩
    exact ⟨hx, by omega, hall⟩
  · rintro ⟨hx, hlen, hall⟩
    exact ⟨by omega, hx, hall⟩

/-- `coversCell` decides membership in the cross-product of a query. -/
theorem coversCell_iff (q : List Variable) :
    ∀ c : List String, coversCell q c = true ↔ c ∈ cells q := by
  induction q with
  | nil =>
    intro c
    cases c with
    | nil => simp [coversCell, cells]
    | cons x c' => simp [coversCell, cells]
  | cons v vs ih =>
    intro c
    cases c with
    | nil =>
      simp [coversCell, cells, List.mem_flatMap, List.mem_map]
    | cons x c' =>
      rw [coversCell_cons, ih c']
      simp only [cells, List.mem_flatMap, List.mem_map]
      constructor
      · rintro ⟨hx, hc⟩
        exact ⟨x, hx, c', hc, rfl⟩
      · rintro ⟨a, ha, cc, hcc, he⟩
        injection he with h1 h2
        subst h1
        subst h2
        exact ⟨ha, hcc⟩

/-- Whenever `_recursive_split` returns on an input with pairwise-distinct
dimension codes, the returned cardinalities sum to the input cardinality. -/
theorem split_counts_sum (fuel : Nat) (vars : List Variable) (qs : List (List Variable))
    (hd : distinctCodes vars) (h : recursive_split fuel vars = some qs) :
    (qs.map countCombinations).sum = countCombinations vars := by
  have hp := (split_cells_perm fuel vars qs hd h).length_eq
  rw [List.length_flatMap, length_cells] at hp
  rw [← hp]
  congr 1
  exact List.map_congr_left fun q _ => by simp [Function.comp, length_cells]

/-- The terminal case of `_recursive_split` (lines 192-194): cardinality
within the cap returns the singleton list of the input, unchanged. -/
theorem recursive_split_terminal (fuel : Nat) (vars : List Variable)
    (h : countCombinations vars ≤ 300000) :
    recursive_split (fuel + 1) vars = some [vars] := by
  rw [recursive_split, if_pos h]

/-- A dimension with an empty value list zeroes the whole cardinality. -/
theorem countCombinations_eq_zero (vars : List Variable) (v : Variable)
    (hv : v ∈ vars) (h0 : v.values = []) : countCombinations vars = 0 := by
  rw [countCombinations_eq_prod]
  apply List.prod_eq_zero
  have hlen : v.values.length = 0 := by rw [h0]; rfl
  exact hlen ▸ List.mem_map_of_mem (fun u => u.values.length) hv

/-- If the second sub-query rebuilt at a split equals the input itself (the
degenerate case: the selected dimension has one value), no recursion depth
makes `_recursive_split` return: the Python function recurses forever. -/
theorem split_none_of_fixpoint (vars : List Variable)
    (h1 : ¬ countCombinations vars ≤ 300000) (h2 : sub2Of vars = vars) :
    ∀ fuel, recursive_split fuel vars = none := by
  intro fuel
  induction fuel with
  | zero => rfl
  | succ n ih =>
    rw [recursive_split, if_neg h1, h2, ih]
    cases recursive_split n (sub1Of vars) <;> rfl

/-- Reindexing a row onto its own (duplicate-free) columns is the
identity. -/
theorem reindexRow_self :
    ∀ (cols : List String) (row : List (Option String)), cols.Nodup →
      row.length = cols.length → reindexRow cols row cols = row := by
  intro cols
  induction cols with
  | nil =>
    intro row _ hlen
    cases row with
    | nil => rfl
    | cons r rs => simp at hlen
  | cons c cs ih =>
    intro row hnd hlen
    cases row with
    | nil => simp at hlen
    | cons r rs =>
      rw [List.nodup_cons] at hnd
      have hlen' : rs.length = cs.length := by simpa using hlen
      show (c :: cs).map _ = _
      rw [List.map_cons, List.zip_cons_cons, List.find?_cons_of_pos _ (by simp)]
      have htail : cs.map (fun c' =>
          match ((c, r) :: cs.zip rs).find? (fun p => p.1 == c') with
          | some p => p.2
          | none => none) = cs.map (fun c' =>
          match (cs.zip rs).find? (fun p => p.1 == c') with
          | some p => p.2
          | none => none) := by
        refine List.map_congr_left fun c' hc' => ?_
        rw [List.find?_cons_of_neg]
        simp only [beq_iff_eq]
        intro he
        exact hnd.1 (he ▸ hc')
      rw [htail]
      exact congrArg (r :: ·) (ih rs hnd.2 hlen')

/-- `pd.concat` of two well-formed frames over the same duplicate-free
column set appends the rows and keeps the columns. -/
theorem pdConcat_same_cols (a b : DataFrame) (hab : a.cols = b.cols)
    (hnd : a.cols.Nodup) (hwa : wfRows a) (hwb : wfRows b) :
    pdConcat a b = ⟨a.cols, a.rows ++ b.rows⟩ := by
  have hfilter : b.cols.filter (fun c => !(a.cols.contains c)) = [] := by
    rw [List.filter_eq_nil_iff]
    intro c hc
    rw [← hab] at hc
    simp [hc]
  show DataFrame.mk _ _ = _
  rw [hfilter, List.append_nil]
  congr 1
  rw [← hab]
  rw [List.map_congr_left fun r hr => reindexRow_self a.cols r hnd (hwa r hr),
    List.map_congr_left fun r hr => reindexRow_self a.cols r hnd (by rw [hab]; exact hwb r hr)]
  simp

/-- The loop body of line 140 on two well-formed frames over one common
nonempty duplicate-free schema appends the second frame's rows. -/
theorem assembleStep_rows (a b : DataFrame) (hne : a.cols ≠ []) (hnd : a.cols.Nodup)
    (hab : a.cols = b.cols) (hwa : wfRows a) (hwb : wfRows b) :
    assembleStep a b = ⟨a.cols, a.rows ++ b.rows⟩ := by
  unfold assembleStep
  by_cases he : pdEmpty a = true
  · rw [if_pos he]
    have hrows : a.rows = [] := by
      unfold pdEmpty at he
      rw [Bool.or_eq_true] at he
      rcases he with h | h
      · exact List.isEmpty_iff.mp h
      · exact absurd (List.isEmpty_iff.mp h) hne
    have : (⟨a.cols, a.rows ++ b.rows⟩ : DataFrame) = b := by
      rw [hrows, hab]
      rfl
    exact this.symm
  · rw [if_neg he]
    exact pdConcat_same_cols a b hab hnd hwa hwb

/-- Folding the assembly loop over frames with nonempty column sets adds
up the row counts, whatever the column sets are. -/
theorem assemble_length_aux :
    ∀ (subs : List DataFrame) (acc : DataFrame), (∀ df ∈ subs, df.cols ≠ []) →
      (acc.cols ≠ [] ∨ acc.rows = []) →
      (subs.foldl assembleStep acc).rows.length
        = acc.rows.length + (subs.map fun df => df.rows.length).sum := by
  intro subs
  induction subs with
  | nil => intro acc _ _; simp
  | cons df subs ih =>
    intro acc hall hacc
    simp only [List.foldl_cons, List.map_cons, List.sum_cons]
    have hdf : df.cols ≠ [] := hall df (by simp)
    have hstep : (assembleStep acc df).rows.length = acc.rows.length + df.rows.length
        ∧ ((assembleStep acc df).cols ≠ [] ∨ (assembleStep acc df).rows = []) := by
      unfold assembleStep
      by_cases he : pdEmpty acc = true
      · rw [if_pos he]
        have hrows : acc.rows = [] := by
          unfold pdEmpty at he
          rw [Bool.or_eq_true] at he
          rcases he with h | h
          · exact List.isEmpty_iff.mp h
          · rcases hacc with h' | h'
            · exact absurd (List.isEmpty_iff.mp h) h'
            · exact h'
        exact ⟨by simp [hrows], Or.inl hdf⟩
      · rw [if_neg he]
        have hcols : acc.cols ≠ [] := by
          unfold pdEmpty at he
          rw [Bool.or_eq_true] at he
          intro h0
          exact he (Or.inr (List.isEmpty_iff.mpr h0))
        constructor
        · simp [pdConcat]
        · left
          show acc.cols ++ _ ≠ []
          simp [hcols]
    rw [ih _ (fun u hu => hall u (by simp [hu])) hstep.2, hstep.1]
    omega

/-- Building the dimension list (lines 110-113) fails when any descriptor
lacks the `code` key (Python's KeyError). -/
theorem buildVariables_none_of_missing_code :
    ∀ (rs : List RawVariable) (r : RawVariable), r ∈ rs → r.code = none →
      buildVariables rs = none := by
  intro rs
  induction rs with
  | nil => intro r hr; exact absurd hr (by simp)
  | cons a rs ih =>
    intro r hr hcode
    rcases List.mem_cons.mp hr with rfl | hr'
    · cases hv : r.values <;> simp [buildVariables, hcode, hv]
    · cases hc : a.code with
      | none => cases hv : a.values <;> simp [buildVariables, hc, hv]
      | some c =>
        cases hv : a.values with
        | none => simp [buildVariables, hc, hv]
        | some vs => simp [buildVariables, hc, hv, ih r hr' hcode]

/-- Building the dimension list succeeds whenever every descriptor has both
keys — no matter whether any value list is empty. -/
theorem buildVariables_isSome :
    ∀ rs : List RawVariable, (∀ r ∈ rs, r.code.isSome ∧ r.values.isSome) →
      (buildVariables rs).isSome := by
  intro rs
  induction rs with
  | nil => intro _; simp [buildVariables]
  | cons a rs ih =>
    intro h
    obtain ⟨hc, hv⟩ := h a (by simp)
    obtain ⟨c, hc⟩ := Option.isSome_iff_exists.mp hc
    obtain ⟨vs, hv⟩ := Option.isSome_iff_exists.mp hv
    have := ih fun r hr => h r (by simp [hr])
    obtain ⟨t, ht⟩ := Option.isSome_iff_exists.mp this
    simp [buildVariables, hc, hv, ht]

/-- Every query `_recursive_split` ever returns has cardinality within the
300,000 cap: the only place a query is emitted is the terminal case, whose
guard is exactly that bound. -/
theorem split_cap_le :
    ∀ (fuel : Nat) (vars : List Variable) (qs : List (List Variable)),
      recursive_split fuel vars = some qs → ∀ q ∈ qs, countCombinations q ≤ 300000 := by
  intro fuel
  induction fuel with
  | zero =>
    intro vars qs h
    simp [recursive_split] at h
  | succ n ih =>
    intro vars qs h
    rw [recursive_split] at h
    by_cases hc : countCombinations vars ≤ 300000
    · rw [if_pos hc] at h
      injection h with h
      subst h
      intro q hq
      rw [List.mem_singleton] at hq
      subst hq
      exact hc
    · rw [if_neg hc] at h
      cases e1 : recursive_split n (sub1Of vars) with
      | none =>
        rw [e1] at h
        simp at h
      | some r1 =>
        cases e2 : recursive_split n (sub2Of vars) with
        | none =>
          rw [e1, e2] at h
          simp at h
        | some r2 =>
          rw [e1, e2] at h
          simp only [Option.some.injEq] at h
          subst h
          intro q hq
          rcases List.mem_append.mp hq with hq | hq
          · exact ih _ r1 e1 q hq
          · exact ih _ r2 e2 q hq

/-- C1: the claim says `_recursive_split` selects the dimension with the
largest value-count.  The code's `max(variables, key=lambda x: x["values"])`
compares the value lists themselves, so on `c1ex` (cardinality 393216,
above the cap, so a split is performed) it selects the one-value dimension
`tiny` although `big` carries three values. -/
theorem claim_C1_selection_not_largest_count :
    pyMaxVar c1ex = ⟨"tiny", ["z"]⟩
    ∧ (pyMaxVar c1ex).values.length = 1
    ∧ (⟨"big", ["a", "b", "c"]⟩ : Variable) ∈ c1ex
    ∧ (⟨"big", ["a", "b", "c"]⟩ : Variable).values.length = 3
    ∧ 300000 < countCombinations c1ex := by decide

/-- C2: the claim says `_recursive_split` terminates on every input.  On
`c2ex` (cardinality 524288 above the cap, selected dimension of one value)
the rebuilt second sub-query equals the input, so the Python recursion
never returns: no fuel suffices. -/
theorem claim_C2_nontermination : neverReturns c2ex :=
  split_none_of_fixpoint c2ex (by decide) (by decide)

/-- C3: every query `_recursive_split` returns is within the cap, but in
the unsplittable degenerate case (`c3ex`) the code raises no
`PartitionError` — no error value exists in the source — and instead never
returns (unbounded recursion). -/
theorem claim_C3_cap_respected_but_no_error :
    (∀ (fuel : Nat) (vars : List Variable) (qs : List (List Variable)),
      recursive_split fuel vars = some qs → ∀ q ∈ qs, countCombinations q ≤ 300000)
    ∧ neverReturns c3ex :=
  ⟨split_cap_le, split_none_of_fixpoint c3ex (by decide) (by decide)⟩

/-- C4 (amended with the distinct-codes invariant of the data model):
whenever `_recursive_split` returns, the returned queries' cells are a
permutation of the input's cross-product; with duplicate-free value lists
every original cell is covered by exactly one returned query; and at any
split the two halves partition the selected dimension's value list
(disjointly, when it is duplicate-free) while every other dimension is
carried into both sub-queries unchanged. -/
theorem claim_C4_exact_cover :
    ∀ (fuel : Nat) (vars : List Variable) (qs : List (List Variable)),
      distinctCodes vars → recursive_split fuel vars = some qs →
      (qs.flatMap cells).Perm (cells vars)
      ∧ ((∀ v ∈ vars, v.values.Nodup) →
          ∀ c ∈ cells vars, (qs.countP fun q => coversCell q c) = 1)
      ∧ (¬ countCombinations vars ≤ 300000 →
          p1Of vars ++ p2Of vars = (pyMaxVar vars).values
          ∧ ((pyMaxVar vars).values.Nodup → ∀ x ∈ p1Of vars, x ∉ p2Of vars)
          ∧ ∀ v ∈ vars, v ≠ pyMaxVar vars → v ∈ sub1Of vars ∧ v ∈ sub2Of vars) := by
  intro fuel vars qs hd h
  refine ⟨split_cells_perm fuel vars qs hd h, ?_, ?_⟩
  · intro hv c hc
    have hperm := split_cells_perm fuel vars qs hd h
    have hnd := cells_nodup vars hv
    have h1 : ((qs.flatMap cells).countP fun x => decide (x = c)) = 1 := by
      rw [hperm.countP_eq]
      exact countP_eq_one_of_nodup _ c hnd hc
    rw [countP_flatMap_cells] at h1
    have h2 := countP_pos_eq_one qs (fun q => (cells q).countP fun x => decide (x = c)) h1
    rw [← h2]
    refine List.countP_congr fun q _ => ?_
    simp [coversCell_iff, List.countP_pos_iff]
  · intro hcap
    refine ⟨List.take_append_drop _ _, ?_, ?_⟩
    · intro hnd x hx1 hx2
      rw [← List.take_append_drop (splitIndexOf vars) (pyMaxVar vars).values,
        List.nodup_append] at hnd
      exact hnd.2.2 hx1 hx2
    · intro v hv hne
      have hmem : ∀ p, v ∈ subQuery vars (pyMaxVar vars) p := by
        intro p
        refine List.mem_map.mpr ⟨v, hv, ?_⟩
        show (⟨v.code, if v = pyMaxVar vars then p else v.values⟩ : Variable) = v
        rw [if_neg hne]
      exact ⟨hmem _, hmem _⟩

/-- Witness for C4 at the one-dimension input of the spec's scenario. -/
theorem claim_C4_witness :
    ([[(⟨"x", ["a"]⟩ : Variable)]].flatMap cells).Perm (cells [⟨"x", ["a"]⟩]) :=
  (claim_C4_exact_cover 1 [⟨"x", ["a"]⟩] [[⟨"x", ["a"]⟩]] (by decide) (by decide)).1

/-- Counterexample to C4 as frozen (quantified over every input list): on
`c4ex`, whose dimension records repeat, the cell `c4cell` of the original
cross-product is covered by none of the returned queries. -/
theorem claim_C4_counterexample :
    coversCell c4ex c4cell = true
    ∧ (recursive_split 2 c4ex).map (fun qs => qs.countP fun q => coversCell q c4cell) = some 0
    ∧ ¬ distinctCodes c4ex := by decide

/-- C5 (amended with the distinct-codes invariant): whenever
`_recursive_split` returns, the cardinalities of the returned queries sum
to the input's cardinality. -/
theorem claim_C5_conservation :
    ∀ (fuel : Nat) (vars : List Variable) (qs : List (List Variable)),
      distinctCodes vars → recursive_split fuel vars = some qs →
      (qs.map countCombinations).sum = countCombinations vars :=
  split_counts_sum

/-- Witness for C5 at a two-value one-dimension input. -/
theorem claim_C5_witness :
    ([[(⟨"y", ["a", "b"]⟩ : Variable)]].map countCombinations).sum
      = countCombinations [⟨"y", ["a", "b"]⟩] :=
  claim_C5_conservation 1 [⟨"y", ["a", "b"]⟩] [[⟨"y", ["a", "b"]⟩]] (by decide) (by decide)

/-- Counterexample to C5 as frozen (quantified over every input list): on
`c5ex`, whose dimension records repeat, the returned cardinalities sum to
262144 while the input cardinality is 524288. -/
theorem claim_C5_counterexample :
    (recursive_split 2 c5ex).map (fun qs => (qs.map countCombinations).sum) = some 262144
    ∧ countCombinations c5ex = 524288
    ∧ ¬ distinctCodes c5ex := by decide

/-- C6: a query within the cap is returned as the singleton list of the
unchanged input, at every positive recursion depth — in particular at
depth one, so no recursive call is needed. -/
theorem claim_C6_terminal_identity :
    ∀ (vars : List Variable) (fuel : Nat), countCombinations vars ≤ 300000 →
      recursive_split (fuel + 1) vars = some [vars] :=
  fun vars fuel h => recursive_split_terminal fuel vars h

/-- Witness for C6: the spec's single-dimension scenario. -/
theorem claim_C6_witness :
    recursive_split 1 [(⟨"x", ["a"]⟩ : Variable)] = some [[⟨"x", ["a"]⟩]] :=
  claim_C6_terminal_identity [⟨"x", ["a"]⟩] 0 (by decide)

/-- C7: assembling three well-formed sub-dataframes over one common
(nonempty, duplicate-free) column schema concatenates their rows verbatim
in partition order; an empty sub-dataframe contributes zero rows without
affecting the order of the rest. -/
theorem claim_C7_order_preservation :
    ∀ (s1 s2 s3 : DataFrame) (c : List String), c ≠ [] → c.Nodup →
      s1.cols = c → s2.cols = c → s3.cols = c →
      wfRows s1 → wfRows s2 → wfRows s3 →
      (assemble [s1, s2, s3]).rows = s1.rows ++ s2.rows ++ s3.rows := by
  intro s1 s2 s3 c hne hnd h1 h2 h3 w1 w2 w3
  have e0 : assemble [s1, s2, s3] = assembleStep (assembleStep s1 s2) s3 := rfl
  have h12 : assembleStep s1 s2 = ⟨s1.cols, s1.rows ++ s2.rows⟩ :=
    assembleStep_rows s1 s2 (by rw [h1]; exact hne) (by rw [h1]; exact hnd)
      (h1.trans h2.symm) w1 w2
  have w12 : wfRows ⟨s1.cols, s1.rows ++ s2.rows⟩ := by
    intro r hr
    rcases List.mem_append.mp hr with hr | hr
    · exact w1 r hr
    · rw [show s1.cols.length = s2.cols.length from by rw [h1, h2]]
      exact w2 r hr
  have h123 : assembleStep ⟨s1.cols, s1.rows ++ s2.rows⟩ s3
      = ⟨s1.cols, (s1.rows ++ s2.rows) ++ s3.rows⟩ :=
    assembleStep_rows _ s3 (by rw [h1]; exact hne) (by rw [h1]; exact hnd)
      (h1.trans h3.symm) w12 w3
  rw [e0, h12, h123]

/-- Witness for C7 with a concrete empty middle sub-dataframe. -/
theorem claim_C7_witness :
    (assemble [⟨["a"], [[some "1"]]⟩, ⟨["a"], []⟩, ⟨["a"], [[some "3"]]⟩]).rows
      = [[some "1"]] ++ [] ++ [[some "3"]] :=
  claim_C7_order_preservation ⟨["a"], [[some "1"]]⟩ ⟨["a"], []⟩ ⟨["a"], [[some "3"]]⟩
    ["a"] (by decide) (by decide) rfl rfl rfl (by decide) (by decide) (by decide)

/-- C8 (amended): on mismatched column sets the assembly loop raises
nothing — `pd.concat` joins the columns — and every row of every
sub-dataframe is kept in the result. -/
theorem claim_C8_silent_merge :
    ∀ subs : List DataFrame, (∀ df ∈ subs, df.cols ≠ []) →
      (assemble subs).rows.length = (subs.map fun df => df.rows.length).sum := by
  intro subs h
  have := assemble_length_aux subs ⟨[], []⟩ h (Or.inr rfl)
  simpa using this

/-- Witness for C8 on two schema-mismatched frames: both rows survive. -/
theorem claim_C8_witness :
    (assemble [⟨["a", "b"], [[some "1", some "2"]]⟩,
      ⟨["a", "c"], [[some "3", some "4"]]⟩]).rows.length = 2 :=
  (claim_C8_silent_merge
    [⟨["a", "b"], [[some "1", some "2"]]⟩, ⟨["a", "c"], [[some "3", some "4"]]⟩]
    (by decide)).trans (by decide)

/-- Counterexample to C8 as frozen: the second frame's column set differs
from the first's, yet the assembly yields a dataframe — the union of the
column schemas with both rows, absent cells filled with NaN — rather than
raising a `SchemaMismatchError` (no such error exists in the code). -/
theorem claim_C8_counterexample :
    (⟨["a", "b"], [[some "1", some "2"]]⟩ : DataFrame).cols
      ≠ (⟨["a", "c"], [[some "3", some "4"]]⟩ : DataFrame).cols
    ∧ assemble [⟨["a", "b"], [[some "1", some "2"]]⟩, ⟨["a", "c"], [[some "3", some "4"]]⟩]
      = ⟨["a", "b", "c"], [[some "1", some "2", none], [some "3", none, some "4"]]⟩ := by
  decide

/-- C9 (amended): building the dimension model fails (Python `KeyError`,
not a `MetadataError`) when a descriptor lacks its `code` key, and that is
the only validation: descriptors with both keys always build, so an empty
value list is accepted without error. -/
theorem claim_C9_keyerror_only :
    (∀ (rs : List RawVariable) (r : RawVariable), r ∈ rs → r.code = none →
        buildVariables rs = none)
    ∧ (∀ rs : List RawVariable, (∀ r ∈ rs, r.code.isSome ∧ r.values.isSome) →
        (buildVariables rs).isSome) :=
  ⟨buildVariables_none_of_missing_code, buildVariables_isSome⟩

/-- Counterexample to C9 as frozen: a descriptor with an empty value list
does not fail — the build returns the dimension with its empty list. -/
theorem claim_C9_counterexample :
    buildVariables [⟨some "x", some []⟩] = some [⟨"x", []⟩] := by decide

/-- C10: a dimension list containing an empty value list has cardinality
0, which is within the cap, so `_recursive_split` returns the input
unchanged as a single query. -/
theorem claim_C10_empty_values :
    ∀ (vars : List Variable) (v : Variable) (fuel : Nat), v ∈ vars → v.values = [] →
      countCombinations vars = 0 ∧ recursive_split (fuel + 1) vars = some [vars] := by
  intro vars v fuel hv h0
  have h := countCombinations_eq_zero vars v hv h0
  exact ⟨h, recursive_split_terminal fuel vars (by omega)⟩

/-- Witness for C10 at a concrete empty-valued dimension. -/
theorem claim_C10_witness :
    countCombinations [(⟨"e", []⟩ : Variable)] = 0
    ∧ recursive_split 1 [(⟨"e", []⟩ : Variable)] = some [[⟨"e", []⟩]] :=
  claim_C10_empty_values [⟨"e", []⟩] ⟨"e", []⟩ 0 (by decide) rfl

end SsbMcp
